import Mathlib

/-!
Shallow embedding of the plotting-position calculator of mpl-probscale.

The repository ships the calculator's documentation (the tutorial notebook
src/docs/tutorial/closer_look_at_plot_pos.ipynb) but not the calculator's own
module, so the computation is modelled from the specification, faithful to its
words; where the notebook (in-repository code) pins down behaviour — the preset
table with its α/β values, the (positions, sorted-data) order of the returned
pair as unpacked by the tutorial cells, the case-insensitive preset names — the
notebook is followed.  Real-valued data is embedded as rational numbers and the
NaN/missing markers of the sample as the none case of an option type.
-/

namespace Probscale

/-- Modelled from the spec: preset lookup is case-insensitive, so names are
lowercased (ASCII, as Python's str.lower acts on the table's names) before the
table lookup.  The repository's own lower-casing helper is not under src. -/
def lowerName (s : String) : String := String.mk (s.data.map Char.toLower)

/-- Modelled from the spec: the preset name table of §6, also printed in the
raw cell of the tutorial notebook, mapping each preset name to its (α, β). -/
def postypeTable : List (String × ℚ × ℚ) :=
  [("type 4", (0, 1)),
   ("type 5", (1/2, 1/2)), ("hazen", (1/2, 1/2)),
   ("type 6", (0, 0)), ("weibull", (0, 0)),
   ("type 7", (1, 1)),
   ("type 8", (1/3, 1/3)),
   ("type 9", (3/8, 3/8)), ("blom", (3/8, 3/8)),
   ("median", (127/400, 127/400)),
   ("apl", (7/20, 7/20)), ("pwm", (7/20, 7/20)),
   ("cunnane", (2/5, 2/5)),
   ("gringorten", (11/25, 11/25))]

/-- Modelled from the spec: look a preset name up in the fixed table,
case-insensitively. -/
def lookupPostype (name : String) : Option (ℚ × ℚ) :=
  (postypeTable.find? (fun p => p.1 == lowerName name)).map (fun p => p.2)

/-- Modelled from the spec: the error taxonomy of §7 — invalid-parameter
(unknown preset name, α/β out of range) and degenerate-input (empty or
all-excluded sample). -/
inductive PlotPosError where
  | invalidParam
  | degenerateInput
deriving DecidableEq

/-- Modelled from the spec: the formula choice handed to the calculator —
either a named preset, or an explicit (α, β) pair, or nothing (which selects
the default preset, cunnane). -/
inductive PosSpec where
  | preset (name : String)
  | explicitAB (alpha beta : ℚ)
  | defaultPos

/-- Modelled from the spec: resolve the formula choice to an (α, β) pair,
rejecting unknown preset names and out-of-range parameters; the default is
cunnane (α = β = 0.4). -/
def resolveAB : PosSpec → Except PlotPosError (ℚ × ℚ)
  | .defaultPos => .ok (2/5, 2/5)
  | .preset name =>
      match lookupPostype name with
      | some ab => .ok ab
      | none => .error .invalidParam
  | .explicitAB a b =>
      if 0 ≤ a ∧ a ≤ 1 ∧ 0 ≤ b ∧ b ≤ 1 then .ok (a, b)
      else .error .invalidParam

/-- Modelled from the spec: the rank of value v within the sample xs —
1-indexed, and for tied values the mean of the ranks the tied group would span
under a strict ordering, i.e. (number below) + ((number tied) + 1) / 2. -/
def avgRank (xs : List ℚ) (v : ℚ) : ℚ :=
  (xs.countP (fun u => decide (u < v)) : ℚ) +
    ((xs.countP (fun u => decide (u = v)) : ℚ) + 1) / 2

/-- Modelled from the spec: the plotting-position formula
(j − α) / (n + 1 − α − β) for a rank j in a sample of size n. -/
def posFormula (n : ℕ) (a b j : ℚ) : ℚ := (j - a) / ((n : ℚ) + 1 - a - b)

/-- Modelled from the spec: steps 2–4 of the algorithm — sort the valid values
ascending and apply the position formula to each value's (tie-averaged) rank. -/
def rawPositions (a b : ℚ) (valid : List ℚ) : List ℚ :=
  (valid.insertionSort (· ≤ ·)).map
    (fun v => posFormula valid.length a b (avgRank (valid.insertionSort (· ≤ ·)) v))

/-- Modelled from the spec: step 5 — when ascending is false each position is
replaced by its complement 1 − p (§8: positions become the complement). -/
def orientPositions (ascending : Bool) (pos : List ℚ) : List ℚ :=
  if ascending then pos else pos.map (fun p => 1 - p)

/-- Modelled from the spec: step 6 — scale by 100 in percentage mode. -/
def scalePositions (asPct : Bool) (pos : List ℚ) : List ℚ :=
  if asPct then pos.map (fun p => p * 100) else pos

/-- Modelled from the spec: the plotting-position calculator.  Missing values
are excluded, the (α, β) choice is resolved (rejecting invalid parameters), an
empty post-exclusion sample is a degenerate input, and otherwise the positions
and the ascending-sorted valid data are returned.  The pair is returned
positions first, sorted data second, the order the tutorial notebook unpacks
(w_probs, _ = probscale.plot_pos(data, postype=weibull)). -/
def plot_pos (data : List (Option ℚ)) (ps : PosSpec) (asPct ascending : Bool) :
    Except PlotPosError (List ℚ × List ℚ) :=
  match resolveAB ps with
  | .error e => .error e
  | .ok (a, b) =>
      let valid := data.filterMap id
      if valid.length = 0 then .error .degenerateInput
      else
        .ok (scalePositions asPct (orientPositions ascending (rawPositions a b valid)),
             valid.insertionSort (· ≤ ·))

/-- The valid values of a sample: the sample with its missing markers dropped. -/
def validOf (data : List (Option ℚ)) : List ℚ := data.filterMap id

/-- Stated from the spec's words, for comparison with avgRank: "for tied
values, assign the mean of the ranks the tied group would span".  The tied
group of v spans the consecutive ranks (number below v) + 1, ...,
(number below v) + (number tied with v); its mean is their sum divided by the
group size. -/
def tiedGroupMean (xs : List ℚ) (v : ℚ) : ℚ :=
  ((List.range (xs.countP (fun u => decide (u = v)))).map
      (fun k : ℕ => (xs.countP (fun u => decide (u < v)) : ℚ) + (k : ℚ) + 1)).sum /
    (xs.countP (fun u => decide (u = v)) : ℚ)

/-- Unfolding a call once the formula choice has resolved. -/
theorem plot_pos_ok_unfold {data : List (Option ℚ)} {ps : PosSpec} {asPct ascending : Bool}
    {a b : ℚ} (hr : resolveAB ps = .ok (a, b)) :
    plot_pos data ps asPct ascending =
      (if (validOf data).length = 0 then Except.error PlotPosError.degenerateInput
       else Except.ok
         (scalePositions asPct (orientPositions ascending (rawPositions a b (validOf data))),
          (validOf data).insertionSort (· ≤ ·))) := by
  unfold plot_pos validOf
  rw [hr]

/-- Unfolding a successful call: the resolved parameters exist, the valid
sample is non-empty, and the components of the returned pair are the
scaled/oriented raw positions and the sorted data. -/
theorem plot_pos_ok_elim {data : List (Option ℚ)} {ps : PosSpec} {asPct ascending : Bool}
    {pos sd : List ℚ} (h : plot_pos data ps asPct ascending = .ok (pos, sd)) :
    ∃ a b, resolveAB ps = .ok (a, b) ∧ (validOf data).length ≠ 0 ∧
      sd = (validOf data).insertionSort (· ≤ ·) ∧
      pos = scalePositions asPct (orientPositions ascending (rawPositions a b (validOf data))) := by
  cases hr : resolveAB ps with
  | error e =>
      rw [show plot_pos data ps asPct ascending = .error e from by unfold plot_pos; rw [hr]] at h
      cases h
  | ok ab =>
      obtain ⟨a, b⟩ := ab
      rw [plot_pos_ok_unfold hr] at h
      by_cases hn : (validOf data).length = 0
      · rw [if_pos hn] at h; cases h
      · rw [if_neg hn] at h
        have h2 := Except.ok.inj h
        exact ⟨a, b, hr ▸ rfl, hn, (congrArg Prod.snd h2).symm, (congrArg Prod.fst h2).symm⟩

/-- Reassembling a successful call from its parts. -/
theorem plot_pos_ok_intro {data : List (Option ℚ)} {ps : PosSpec} {asPct ascending : Bool}
    {a b : ℚ} (hr : resolveAB ps = .ok (a, b)) (hn : (validOf data).length ≠ 0) :
    plot_pos data ps asPct ascending =
      .ok (scalePositions asPct (orientPositions ascending (rawPositions a b (validOf data))),
           (validOf data).insertionSort (· ≤ ·)) := by
  rw [plot_pos_ok_unfold hr, if_neg hn]

/-- A call with resolution failure returns exactly that error. -/
theorem plot_pos_resolve_error {data : List (Option ℚ)} {ps : PosSpec} {asPct ascending : Bool}
    {e : PlotPosError} (hr : resolveAB ps = .error e) :
    plot_pos data ps asPct ascending = .error e := by
  unfold plot_pos
  rw [hr]

/-- A call whose valid sample is empty fails with the degenerate-input error. -/
theorem plot_pos_degenerate {data : List (Option ℚ)} {ps : PosSpec} {asPct ascending : Bool}
    {a b : ℚ} (hr : resolveAB ps = .ok (a, b)) (hn : (validOf data).length = 0) :
    plot_pos data ps asPct ascending = .error .degenerateInput := by
  rw [plot_pos_ok_unfold hr, if_pos hn]

/-- The calculator depends on the formula choice only through its resolution. -/
theorem plot_pos_congr_resolve {ps ps' : PosSpec} (h : resolveAB ps = resolveAB ps')
    (data : List (Option ℚ)) (asPct ascending : Bool) :
    plot_pos data ps asPct ascending = plot_pos data ps' asPct ascending := by
  unfold plot_pos
  rw [h]

/-- In a strictly sorted list, the number of entries below the i-th entry
is i. -/
theorem countP_lt_getElem_of_pairwise_lt :
    ∀ (xs : List ℚ), xs.Pairwise (· < ·) → ∀ (i : ℕ) (h : i < xs.length),
      xs.countP (fun u => decide (u < xs[i])) = i
  | [], _, i, h => absurd h (by simp)
  | a :: t, hxs, 0, h => by
      obtain ⟨ha, ht⟩ := List.pairwise_cons.mp hxs
      rw [List.countP_cons]
      have h1 : t.countP (fun u => decide (u < a)) = 0 :=
        List.countP_eq_zero.mpr (fun u hu => by simpa using not_lt.mpr (le_of_lt (ha u hu)))
      simp [h1]
  | a :: t, hxs, i + 1, h => by
      obtain ⟨ha, ht⟩ := List.pairwise_cons.mp hxs
      have hi : i < t.length := by simpa using h
      rw [List.getElem_cons_succ, List.countP_cons]
      have hlt : a < t[i] := ha _ (List.getElem_mem hi)
      have ih := countP_lt_getElem_of_pairwise_lt t ht i hi
      simp [ih, hlt]

/-- In a duplicate-free list, a member is counted exactly once. -/
theorem countP_eq_one_of_nodup :
    ∀ {xs : List ℚ}, xs.Nodup → ∀ {v : ℚ}, v ∈ xs →
      xs.countP (fun u => decide (u = v)) = 1 := by
  intro xs
  induction xs with
  | nil => intro _ v hv; cases hv
  | cons a t ih =>
      intro hnd v hv
      obtain ⟨hat, hnt⟩ := List.nodup_cons.mp hnd
      rw [List.countP_cons]
      rcases List.mem_cons.mp hv with hva | hvt
      · subst hva
        have h0 : t.countP (fun u => decide (u = v)) = 0 :=
          List.countP_eq_zero.mpr (fun u hu => by
            simp only [decide_eq_true_eq]
            exact fun huv => hat (huv ▸ hu))
        simp [h0]
      · have hav : ¬(a = v) := fun hav => hat (hav ▸ hvt)
        simp [ih hnt hvt, hav]

/-- Entries below u together with entries tied with u are all below any
v above u. -/
theorem countP_lt_add_countP_eq_le (xs : List ℚ) {u v : ℚ} (huv : u < v) :
    xs.countP (fun w => decide (w < u)) + xs.countP (fun w => decide (w = u)) ≤
      xs.countP (fun w => decide (w < v)) := by
  induction xs with
  | nil => simp
  | cons a t ih =>
      simp only [List.countP_cons]
      by_cases h1 : a < u
      · have h2 : ¬(a = u) := ne_of_lt h1
        have h3 : a < v := h1.trans huv
        simp [h1, h2, h3]
        omega
      · by_cases h2 : a = u
        · subst h2
          have h3 : a < v := huv
          simp [h1, h3]
          omega
        · by_cases h3 : a < v <;> simp [h1, h2, h3] <;> omega

/-- Entries below v together with entries tied with v never outnumber the
list. -/
theorem countP_lt_add_countP_eq_le_length (xs : List ℚ) (v : ℚ) :
    xs.countP (fun w => decide (w < v)) + xs.countP (fun w => decide (w = v)) ≤
      xs.length := by
  induction xs with
  | nil => simp
  | cons a t ih =>
      simp only [List.countP_cons, List.length_cons]
      by_cases h1 : a < v
      · have h2 : ¬(a = v) := ne_of_lt h1
        simp [h1, h2]
        omega
      · by_cases h2 : a = v <;> simp [h1, h2] <;> omega

/-- A member of the sample is tied with itself at least once. -/
theorem one_le_countP_eq {xs : List ℚ} {v : ℚ} (hv : v ∈ xs) :
    1 ≤ xs.countP (fun u => decide (u = v)) := by
  have : 0 < xs.countP (fun u => decide (u = v)) :=
    List.countP_pos_iff.mpr ⟨v, hv, by simp⟩
  omega

/-- Ranks are at least 1. -/
theorem one_le_avgRank {xs : List ℚ} {v : ℚ} (hv : v ∈ xs) : 1 ≤ avgRank xs v := by
  unfold avgRank
  have hm : (1 : ℚ) ≤ xs.countP (fun u => decide (u = v)) := by
    exact_mod_cast one_le_countP_eq hv
  have hc : (0 : ℚ) ≤ xs.countP (fun u => decide (u < v)) := by positivity
  linarith

/-- Ranks are at most the sample size. -/
theorem avgRank_le_length {xs : List ℚ} {v : ℚ} (hv : v ∈ xs) :
    avgRank xs v ≤ xs.length := by
  unfold avgRank
  have h1 : (xs.countP (fun u => decide (u < v)) : ℚ) +
      xs.countP (fun u => decide (u = v)) ≤ xs.length := by
    exact_mod_cast countP_lt_add_countP_eq_le_length xs v
  have hm : (1 : ℚ) ≤ xs.countP (fun u => decide (u = v)) := by
    exact_mod_cast one_le_countP_eq hv
  linarith

/-- Ranks grow strictly along strictly larger members. -/
theorem avgRank_lt_avgRank {xs : List ℚ} {u v : ℚ} (hu : u ∈ xs) (huv : u < v) :
    avgRank xs u < avgRank xs v := by
  unfold avgRank
  have h1 : (xs.countP (fun w => decide (w < u)) : ℚ) +
      xs.countP (fun w => decide (w = u)) ≤ xs.countP (fun w => decide (w < v)) := by
    exact_mod_cast countP_lt_add_countP_eq_le xs huv
  have hmu : (1 : ℚ) ≤ xs.countP (fun w => decide (w = u)) := by
    exact_mod_cast one_le_countP_eq hu
  have hmv : (0 : ℚ) ≤ xs.countP (fun w => decide (w = v)) := by positivity
  linarith

/-- In a strictly sorted list the i-th entry has rank i + 1. -/
theorem avgRank_getElem_of_pairwise_lt {xs : List ℚ} (hxs : xs.Pairwise (· < ·))
    (i : ℕ) (h : i < xs.length) : avgRank xs xs[i] = i + 1 := by
  unfold avgRank
  have hnd : xs.Nodup := hxs.imp ne_of_lt
  rw [countP_lt_getElem_of_pairwise_lt xs hxs i h,
      countP_eq_one_of_nodup hnd (List.getElem_mem h)]
  push_cast
  ring

/-- The sum of the consecutive ranks c + 1, ..., c + m. -/
theorem sum_consecutive_ranks (c : ℚ) :
    ∀ m : ℕ, ((List.range m).map (fun k : ℕ => c + (k : ℚ) + 1)).sum =
      m * c + m * (m + 1) / 2
  | 0 => by simp
  | m + 1 => by
      rw [List.range_succ, List.map_append, List.sum_append, sum_consecutive_ranks c m]
      push_cast
      simp
      ring

/-- The tie-averaged rank is exactly the mean of the ranks the tied group
would span. -/
theorem avgRank_eq_tiedGroupMean {xs : List ℚ} {v : ℚ} (hv : v ∈ xs) :
    avgRank xs v = tiedGroupMean xs v := by
  unfold avgRank tiedGroupMean
  rw [sum_consecutive_ranks]
  have hm : 1 ≤ xs.countP (fun u => decide (u = v)) := one_le_countP_eq hv
  have hm0 : (xs.countP (fun u => decide (u = v)) : ℚ) ≠ 0 :=
    Nat.cast_ne_zero.mpr (by omega)
  field_simp
  ring

/-- Sorting the valid sample permutes it. -/
theorem sortedValid_perm (valid : List ℚ) :
    List.Perm (valid.insertionSort (· ≤ ·)) valid :=
  List.perm_insertionSort _ valid

/-- Sorting the valid sample sorts it in ascending order. -/
theorem sortedValid_sorted (valid : List ℚ) :
    (valid.insertionSort (· ≤ ·)).Pairwise (· ≤ ·) :=
  List.sorted_insertionSort _ valid

/-- A sorted duplicate-free list is strictly sorted. -/
theorem pairwise_lt_of_sorted_nodup {xs : List ℚ} (hs : xs.Pairwise (· ≤ ·))
    (hnd : xs.Nodup) : xs.Pairwise (· < ·) :=
  (hs.and hnd).imp (fun h => lt_of_le_of_ne h.1 h.2)

/-- The position formula is positive on ranks at least 1 when α and β are
below 1. -/
theorem posFormula_pos {n : ℕ} {a b j : ℚ} (ha1 : a < 1) (hb1 : b < 1)
    (hn : 1 ≤ n) (hj : 1 ≤ j) : 0 < posFormula n a b j := by
  unfold posFormula
  have hn' : (1 : ℚ) ≤ n := by exact_mod_cast hn
  apply div_pos <;> linarith

/-- The position formula stays below 1 on ranks at most n when β is below 1. -/
theorem posFormula_lt_one {n : ℕ} {a b j : ℚ} (ha1 : a < 1) (hb1 : b < 1)
    (hn : 1 ≤ n) (hj : j ≤ n) : posFormula n a b j < 1 := by
  unfold posFormula
  have hn' : (1 : ℚ) ≤ n := by exact_mod_cast hn
  rw [div_lt_one (by linarith)]
  linarith

/-- The position formula is monotone in the rank when the denominator is
nonnegative (division by zero is zero, so a zero denominator gives a constant
formula). -/
theorem posFormula_mono {n : ℕ} {a b : ℚ} (hD : 0 ≤ (n : ℚ) + 1 - a - b)
    {j k : ℚ} (hjk : j ≤ k) : posFormula n a b j ≤ posFormula n a b k := by
  unfold posFormula
  rcases eq_or_lt_of_le hD with hD0 | hDpos
  · rw [← hD0, div_zero, div_zero]
  · exact (div_le_div_iff_of_pos_right hDpos).mpr (by linarith)

/-- The position formula is strictly monotone in the rank when the denominator
is positive. -/
theorem posFormula_strictMono {n : ℕ} {a b : ℚ} (hD : 0 < (n : ℚ) + 1 - a - b)
    {j k : ℚ} (hjk : j < k) : posFormula n a b j < posFormula n a b k :=
  (div_lt_div_iff_of_pos_right hD).mpr (by linarith)

/-- Raw positions are positionally paired with the sorted sample. -/
theorem rawPositions_length (a b : ℚ) (valid : List ℚ) :
    (rawPositions a b valid).length = valid.length := by
  unfold rawPositions
  rw [List.length_map, (sortedValid_perm valid).length_eq]

/-- Orientation does not change the number of positions. -/
theorem orientPositions_length (ascending : Bool) (pos : List ℚ) :
    (orientPositions ascending pos).length = pos.length := by
  unfold orientPositions
  cases ascending <;> simp

/-- Scaling does not change the number of positions. -/
theorem scalePositions_length (asPct : Bool) (pos : List ℚ) :
    (scalePositions asPct pos).length = pos.length := by
  unfold scalePositions
  cases asPct <;> simp

/-- Every raw position lies strictly between 0 and 1 when α and β are below
1. -/
theorem rawPositions_mem_bounds {a b : ℚ} {valid : List ℚ} (ha1 : a < 1) (hb1 : b < 1)
    (hn : valid.length ≠ 0) : ∀ p ∈ rawPositions a b valid, 0 < p ∧ p < 1 := by
  intro p hp
  unfold rawPositions at hp
  obtain ⟨v, hv, rfl⟩ := List.mem_map.mp hp
  have hn1 : 1 ≤ valid.length := Nat.pos_of_ne_zero hn
  have hlen : (valid.insertionSort (· ≤ ·)).length = valid.length :=
    (sortedValid_perm valid).length_eq
  have hr1 : 1 ≤ avgRank (valid.insertionSort (· ≤ ·)) v := one_le_avgRank hv
  have hrn : avgRank (valid.insertionSort (· ≤ ·)) v ≤ valid.length := by
    have := avgRank_le_length hv
    rwa [hlen] at this
  exact ⟨posFormula_pos ha1 hb1 hn1 hr1, posFormula_lt_one ha1 hb1 hn1 hrn⟩

unseal Rat.mul Rat.inv Rat.add Rat.sub in
/-- Every pair in the preset table lies inside the unit square. -/
theorem postypeTable_range :
    ∀ p ∈ postypeTable, 0 ≤ p.2.1 ∧ p.2.1 ≤ 1 ∧ 0 ≤ p.2.2 ∧ p.2.2 ≤ 1 := by
  decide

/-- Resolved parameters always lie inside the unit square. -/
theorem resolveAB_range {ps : PosSpec} {a b : ℚ} (h : resolveAB ps = .ok (a, b)) :
    0 ≤ a ∧ a ≤ 1 ∧ 0 ≤ b ∧ b ≤ 1 := by
  cases ps with
  | defaultPos =>
      simp only [resolveAB] at h
      injection h with h2
      injection h2 with ha hb
      subst ha hb
      norm_num
  | preset name =>
      simp only [resolveAB] at h
      cases hl : lookupPostype name with
      | none => rw [hl] at h; cases h
      | some ab =>
          rw [hl] at h
          injection h with hab
          subst hab
          unfold lookupPostype at hl
          obtain ⟨p, hp, hp2⟩ := Option.map_eq_some'.mp hl
          have hmem := List.mem_of_find?_eq_some hp
          have hrange := postypeTable_range p hmem
          rw [hp2] at hrange
          exact hrange
  | explicitAB x y =>
      simp only [resolveAB] at h
      split at h
      · next hcond =>
          injection h with h2
          injection h2 with ha hb
          subst ha hb
          exact hcond
      · cases h

/-- A list holding two distinct members has at least two entries. -/
theorem two_le_length_of_mem_ne {xs : List ℚ} {u v : ℚ} (hu : u ∈ xs) (hv : v ∈ xs)
    (huv : u ≠ v) : 2 ≤ xs.length := by
  match xs with
  | [] => cases hu
  | [a] =>
      have h1 : u = a := by simpa using hu
      have h2 : v = a := by simpa using hv
      exact absurd (h1.trans h2.symm) huv
  | a :: c :: t => simp only [List.length_cons]; omega

/-- Descending orientation composed with scaling is the pointwise complement
of the ascending result (1 − p, or 100 − p in percentage mode). -/
theorem scale_orient_flip (asPct : Bool) (raw : List ℚ) :
    scalePositions asPct (orientPositions false raw) =
      (scalePositions asPct (orientPositions true raw)).map
        (fun p => (if asPct then (100 : ℚ) else 1) - p) := by
  cases asPct with
  | false =>
      simp only [scalePositions, orientPositions, if_neg, Bool.false_eq_true, if_false,
        if_true, ite_true]
  | true =>
      simp only [scalePositions, orientPositions, Bool.false_eq_true, if_false, if_true,
        ite_true, List.map_map]
      induction raw with
      | nil => rfl
      | cons p t ih =>
          simp only [List.map_cons, Function.comp] at ih ⊢
          refine congrArg₂ _ (by ring) ?_
          simpa using ih

/-- Ranks are monotone along the sample order. -/
theorem avgRank_le_avgRank {xs : List ℚ} {u v : ℚ} (hu : u ∈ xs) (huv : u ≤ v) :
    avgRank xs u ≤ avgRank xs v := by
  rcases eq_or_lt_of_le huv with rfl | hlt
  · exact le_refl _
  · exact (avgRank_lt_avgRank hu hlt).le

/-- Zipping a list with its own image lists the graph of the function. -/
theorem zip_self_map (xs : List ℚ) (f : ℚ → ℚ) :
    xs.zip (xs.map f) = xs.map (fun v => (v, f v)) := by
  induction xs with
  | nil => rfl
  | cons a t ih => simp [ih]

/-- In an ascending fraction-mode call, the positions are exactly the raw
positions of the valid sample. -/
theorem plot_pos_ok_raw {data : List (Option ℚ)} {ps : PosSpec} {pos sd : List ℚ}
    (h : plot_pos data ps false true = .ok (pos, sd)) :
    ∃ a b, resolveAB ps = .ok (a, b) ∧ pos = rawPositions a b (validOf data) ∧
      sd = (validOf data).insertionSort (· ≤ ·) ∧ (validOf data).length ≠ 0 := by
  obtain ⟨a, b, hr, hn, hsd, hpos⟩ := plot_pos_ok_elim h
  exact ⟨a, b, hr, hpos, hsd, hn⟩

/-- Unfolding a successful resolution of explicit parameters. -/
theorem resolveAB_explicit_elim {x y a b : ℚ}
    (h : resolveAB (.explicitAB x y) = .ok (a, b)) : x = a ∧ y = b := by
  simp only [resolveAB] at h
  split at h
  · injection h with h2
    injection h2 with ha hb
    exact ⟨ha, hb⟩
  · cases h

/-- The i-th raw position is the formula applied to the rank of the i-th
sorted value. -/
theorem rawPositions_getElem {a b : ℚ} {valid : List ℚ} {i : ℕ}
    (hi : i < (valid.insertionSort (· ≤ ·)).length)
    (h : i < (rawPositions a b valid).length) :
    (rawPositions a b valid)[i] =
      posFormula valid.length a b
        (avgRank (valid.insertionSort (· ≤ ·)) ((valid.insertionSort (· ≤ ·))[i])) := by
  unfold rawPositions at h ⊢
  exact List.getElem_map _

/-- Orientation and scaling carry the open unit interval to the configured
open interval. -/
theorem scale_orient_mem_bounds {asPct ascending : Bool} {raw : List ℚ}
    (hb : ∀ q ∈ raw, 0 < q ∧ q < 1) :
    ∀ p ∈ scalePositions asPct (orientPositions ascending raw),
      0 < p ∧ p < (if asPct then (100 : ℚ) else 1) := by
  intro p hp
  cases asPct <;> cases ascending <;>
    simp only [scalePositions, orientPositions, Bool.false_eq_true, if_false, if_true,
      ite_true, List.mem_map] at hp ⊢
  · obtain ⟨q, hq, rfl⟩ := hp
    obtain ⟨hq0, hq1⟩ := hb q hq
    constructor <;> linarith
  · exact hb p hp
  · obtain ⟨q, hq2, rfl⟩ := hp
    obtain ⟨q', hq', rfl⟩ := hq2
    obtain ⟨hq0, hq1⟩ := hb q' hq'
    constructor <;> nlinarith
  · obtain ⟨q, hq, rfl⟩ := hp
    obtain ⟨hq0, hq1⟩ := hb q hq
    constructor <;> nlinarith

/-- The positions of a successful ascending call are sorted in ascending
order. -/
theorem positions_sorted_of_ok {data : List (Option ℚ)} {ps : PosSpec} {asPct : Bool}
    {pos sd : List ℚ} (h : plot_pos data ps asPct true = .ok (pos, sd)) :
    pos.Pairwise (· ≤ ·) := by
  obtain ⟨a, b, hr, hn, hsd, hpos⟩ := plot_pos_ok_elim h
  obtain ⟨ha0, ha1, hb0, hb1⟩ := resolveAB_range hr
  have hD : 0 ≤ ((validOf data).length : ℚ) + 1 - a - b := by
    have h1 : (1 : ℚ) ≤ (validOf data).length := by
      exact_mod_cast Nat.pos_of_ne_zero hn
    linarith
  have hmono : ((validOf data).insertionSort (· ≤ ·)).Pairwise
      (fun u v =>
        posFormula (validOf data).length a b
            (avgRank ((validOf data).insertionSort (· ≤ ·)) u) ≤
          posFormula (validOf data).length a b
            (avgRank ((validOf data).insertionSort (· ≤ ·)) v)) :=
    (sortedValid_sorted (validOf data)).imp_of_mem
      (fun hu _ huv => posFormula_mono hD (avgRank_le_avgRank hu huv))
  have hraw : (rawPositions a b (validOf data)).Pairwise (· ≤ ·) := by
    unfold rawPositions
    exact List.pairwise_map.mpr hmono
  subst hpos
  cases asPct with
  | false => exact hraw
  | true =>
      show ((rawPositions a b (validOf data)).map (fun p => p * 100)).Pairwise (· ≤ ·)
      exact List.pairwise_map.mpr
        (hraw.imp (fun hle => by
          have h100 : (0 : ℚ) ≤ 100 := by norm_num
          exact mul_le_mul_of_nonneg_right hle h100))

unseal Rat.mul Rat.inv Rat.add Rat.sub Rat.ofScientific in
/-- Claim C4: the preset name table maps exactly as listed — type 4 to (0,1),
type 5 and hazen to (0.5,0.5), type 6 and weibull to (0,0), type 7 to (1,1),
type 8 to (1/3,1/3), type 9 and blom to (0.375,0.375), median to
(0.3175,0.3175), apl and pwm to (0.35,0.35), cunnane to (0.4,0.4),
gringorten to (0.44,0.44) — and an absent formula choice defaults to
cunnane's (0.4, 0.4). -/
theorem claim_C4_preset_table :
    lookupPostype "type 4" = some (0, 1) ∧
    lookupPostype "type 5" = some (0.5, 0.5) ∧
    lookupPostype "hazen" = some (0.5, 0.5) ∧
    lookupPostype "type 6" = some (0, 0) ∧
    lookupPostype "weibull" = some (0, 0) ∧
    lookupPostype "type 7" = some (1, 1) ∧
    lookupPostype "type 8" = some (1/3, 1/3) ∧
    lookupPostype "type 9" = some (0.375, 0.375) ∧
    lookupPostype "blom" = some (0.375, 0.375) ∧
    lookupPostype "median" = some (0.3175, 0.3175) ∧
    lookupPostype "apl" = some (0.35, 0.35) ∧
    lookupPostype "pwm" = some (0.35, 0.35) ∧
    lookupPostype "cunnane" = some (0.4, 0.4) ∧
    lookupPostype "gringorten" = some (0.44, 0.44) ∧
    resolveAB .defaultPos = .ok (0.4, 0.4) := by
  refine ⟨by decide, by decide, by decide, by decide, by decide, by decide, by decide,
    by decide, by decide, by decide, by decide, by decide, by decide, by decide, by rfl⟩

unseal Rat.mul Rat.inv Rat.add Rat.sub in
/-- Claim C5: preset lookup is case-insensitive and alias-consistent — names
with the same lowercase form select the same computation, and weibull and
type 6 give identical output on identical data. -/
theorem claim_C5_case_insensitive :
    (∀ s t : String, lowerName s = lowerName t →
      ∀ (data : List (Option ℚ)) (asPct ascending : Bool),
        plot_pos data (.preset s) asPct ascending =
          plot_pos data (.preset t) asPct ascending) ∧
    (∀ (data : List (Option ℚ)) (asPct ascending : Bool),
      plot_pos data (.preset "weibull") asPct ascending =
        plot_pos data (.preset "type 6") asPct ascending) := by
  constructor
  · intro s t hst data asPct ascending
    apply plot_pos_congr_resolve
    simp only [resolveAB, lookupPostype, hst]
  · intro data asPct ascending
    apply plot_pos_congr_resolve
    simp only [resolveAB]
    rw [show lookupPostype "weibull" = some (0, 0) from by decide,
        show lookupPostype "type 6" = some (0, 0) from by decide]

unseal Rat.mul Rat.inv Rat.add Rat.sub in
/-- Witness for claim C5 at the notebook's names Hazen and hazen and at the
weibull / type 6 aliases. -/
theorem claim_C5_witness :
    plot_pos [some 1, some 2] (.preset "Hazen") false true =
      plot_pos [some 1, some 2] (.preset "hazen") false true ∧
    plot_pos [some 1, some 2] (.preset "weibull") false true =
      plot_pos [some 1, some 2] (.preset "type 6") false true :=
  ⟨claim_C5_case_insensitive.1 "Hazen" "hazen" (by decide) [some 1, some 2] false true,
   claim_C5_case_insensitive.2 [some 1, some 2] false true⟩

/-- Claim C6: the computation fails with the invalid-parameter error exactly
on an unrecognized preset name or explicit α, β outside [0,1], fails with the
degenerate-input error when the valid sample is empty, succeeds otherwise,
and the name nonsense is unrecognized. -/
theorem claim_C6_errors :
    (∀ (data : List (Option ℚ)) (name : String) (asPct ascending : Bool),
        lookupPostype name = none →
        plot_pos data (.preset name) asPct ascending = .error .invalidParam) ∧
    (∀ (data : List (Option ℚ)) (a b : ℚ) (asPct ascending : Bool),
        ¬(0 ≤ a ∧ a ≤ 1 ∧ 0 ≤ b ∧ b ≤ 1) →
        plot_pos data (.explicitAB a b) asPct ascending = .error .invalidParam) ∧
    (∀ (data : List (Option ℚ)) (ps : PosSpec) (asPct ascending : Bool) (ab : ℚ × ℚ),
        resolveAB ps = .ok ab → (validOf data).length = 0 →
        plot_pos data ps asPct ascending = .error .degenerateInput) ∧
    (∀ (data : List (Option ℚ)) (ps : PosSpec) (asPct ascending : Bool) (ab : ℚ × ℚ),
        resolveAB ps = .ok ab → (validOf data).length ≠ 0 →
        ∃ pos sd, plot_pos data ps asPct ascending = .ok (pos, sd)) ∧
    lookupPostype "nonsense" = none := by
  refine ⟨?_, ?_, ?_, ?_, by decide⟩
  · intro data name asPct ascending hl
    apply plot_pos_resolve_error
    simp only [resolveAB, hl]
  · intro data a b asPct ascending hcond
    apply plot_pos_resolve_error
    simp only [resolveAB, if_neg hcond]
  · intro data ps asPct ascending ab hr hn
    obtain ⟨a, b⟩ := ab
    exact plot_pos_degenerate hr hn
  · intro data ps asPct ascending ab hr hn
    obtain ⟨a, b⟩ := ab
    exact ⟨_, _, plot_pos_ok_intro hr hn⟩

/-- Witness for claim C6: the preset nonsense is rejected, out-of-range
explicit parameters are rejected, the empty and the all-excluded sample give
the degenerate-input error, and a well-formed call succeeds. -/
theorem claim_C6_witness :
    plot_pos [some 1] (.preset "nonsense") false true = .error .invalidParam ∧
    plot_pos [some 1] (.explicitAB 2 0) false true = .error .invalidParam ∧
    plot_pos ([] : List (Option ℚ)) .defaultPos false true = .error .degenerateInput ∧
    plot_pos [none] .defaultPos false true = .error .degenerateInput ∧
    ∃ pos sd, plot_pos [some 1] .defaultPos false true = .ok (pos, sd) :=
  ⟨claim_C6_errors.1 [some 1] "nonsense" false true (by decide),
   claim_C6_errors.2.1 [some 1] 2 0 false true (by decide),
   claim_C6_errors.2.2.1 ([] : List (Option ℚ)) .defaultPos false true (2/5, 2/5)
     (by rfl) (by decide),
   claim_C6_errors.2.2.1 [none] .defaultPos false true (2/5, 2/5) (by rfl) (by decide),
   claim_C6_errors.2.2.2.1 [some 1] .defaultPos false true (2/5, 2/5) (by rfl) (by decide)⟩

/-- Claim C7: the sorted data of a successful call is in ascending numeric
order, and toggling ascending to false returns the same sorted data paired
with the complemented positions (1 − p, or 100 − p in percentage mode). -/
theorem claim_C7_descending_complement {data : List (Option ℚ)} {ps : PosSpec}
    {asPct : Bool} {pos sd : List ℚ}
    (h : plot_pos data ps asPct true = .ok (pos, sd)) :
    sd.Pairwise (· ≤ ·) ∧
    plot_pos data ps asPct false =
      .ok (pos.map (fun p => (if asPct then (100 : ℚ) else 1) - p), sd) := by
  obtain ⟨a, b, hr, hn, hsd, hpos⟩ := plot_pos_ok_elim h
  subst hsd hpos
  refine ⟨sortedValid_sorted _, ?_⟩
  rw [plot_pos_ok_intro hr hn, scale_orient_flip]

unseal Rat.mul Rat.inv Rat.add Rat.sub in
/-- Witness for claim C7 on weibull positions of the sample 1, 2. -/
theorem claim_C7_witness :
    ([1, 2] : List ℚ).Pairwise (· ≤ ·) ∧
    plot_pos [some 1, some 2] (.preset "weibull") false false =
      .ok (([1/3, 2/3] : List ℚ).map (fun p => (if false then (100 : ℚ) else 1) - p),
           [1, 2]) :=
  claim_C7_descending_complement (by rfl)

/-- Claim C10: for a fixed sample, any two successfully resolving formula
choices return the same data component; the choice affects only the
positions. -/
theorem claim_C10_data_independent (data : List (Option ℚ)) (ps1 ps2 : PosSpec)
    (asPct ascending : Bool) (ab1 ab2 : ℚ × ℚ)
    (h1 : resolveAB ps1 = .ok ab1) (h2 : resolveAB ps2 = .ok ab2) :
    (plot_pos data ps1 asPct ascending).map Prod.snd =
      (plot_pos data ps2 asPct ascending).map Prod.snd := by
  obtain ⟨a1, b1⟩ := ab1
  obtain ⟨a2, b2⟩ := ab2
  by_cases hn : (validOf data).length = 0
  · rw [plot_pos_degenerate h1 hn, plot_pos_degenerate h2 hn]
  · rw [plot_pos_ok_intro h1 hn, plot_pos_ok_intro h2 hn]
    rfl

unseal Rat.mul Rat.inv Rat.add Rat.sub in
/-- Witness for claim C10 at the notebook's weibull and cunnane calls. -/
theorem claim_C10_witness :
    (plot_pos [some 1, some 2] (.preset "weibull") false true).map Prod.snd =
      (plot_pos [some 1, some 2] (.preset "cunnane") false true).map Prod.snd :=
  claim_C10_data_independent [some 1, some 2] (.preset "weibull") (.preset "cunnane")
    false true (0, 0) (2/5, 2/5) (by rfl) (by rfl)

unseal Rat.mul Rat.inv Rat.add Rat.sub in
/-- Claim C1: for a duplicate-free valid sample and valid parameters, the
position paired with the j-th smallest value is (j − α) / (n + 1 − α − β);
in particular the sample 1..5 gives positions 1/6, ..., 5/6 under the weibull
preset and (j − 0.4) / 5.2 under the cunnane preset. -/
theorem claim_C1_rank_formula :
    (∀ (data : List (Option ℚ)) (a b : ℚ) (pos sd : List ℚ),
        plot_pos data (.explicitAB a b) false true = .ok (pos, sd) →
        (validOf data).Nodup →
        ∀ (i : ℕ) (hi : i < pos.length),
          pos[i] = (((i : ℚ) + 1) - a) / (((validOf data).length : ℚ) + 1 - a - b)) ∧
    plot_pos [some 1, some 2, some 3, some 4, some 5] (.preset "weibull") false true =
      .ok ([1/6, 2/6, 3/6, 4/6, 5/6], [1, 2, 3, 4, 5]) ∧
    plot_pos [some 1, some 2, some 3, some 4, some 5] (.preset "cunnane") false true =
      .ok ([(1 - 2/5) / (26/5), (2 - 2/5) / (26/5), (3 - 2/5) / (26/5),
            (4 - 2/5) / (26/5), (5 - 2/5) / (26/5)], [1, 2, 3, 4, 5]) := by
  refine ⟨?_, by rfl, by rfl⟩
  intro data a b pos sd h hnd i hi
  obtain ⟨a', b', hr, hpos, hsd, hn⟩ := plot_pos_ok_raw h
  obtain ⟨ha, hb⟩ := resolveAB_explicit_elim hr
  subst ha hb
  subst hpos
  have hsorted_nodup : ((validOf data).insertionSort (· ≤ ·)).Nodup :=
    ((sortedValid_perm (validOf data)).nodup_iff).mpr hnd
  have hstrict := pairwise_lt_of_sorted_nodup (sortedValid_sorted (validOf data)) hsorted_nodup
  have hlen : i < ((validOf data).insertionSort (· ≤ ·)).length := by
    rw [rawPositions_length] at hi
    rwa [(sortedValid_perm (validOf data)).length_eq]
  rw [rawPositions_getElem hlen hi, avgRank_getElem_of_pairwise_lt hstrict i hlen]
  unfold posFormula
  ring_nf

unseal Rat.mul Rat.inv Rat.add Rat.sub in
/-- Witness for claim C1 at the distinct sample 1, 2 with explicit
α = β = 0. -/
theorem claim_C1_witness :
    ([1/3, 2/3] : List ℚ)[0] =
      (((0 : ℕ) : ℚ) + 1 - 0) / (((validOf [some 1, some 2]).length : ℚ) + 1 - 0 - 0) :=
  claim_C1_rank_formula.1 [some 1, some 2] 0 0 [1/3, 2/3] [1, 2] (by rfl) (by decide)
    0 (by decide)

unseal Rat.mul Rat.inv Rat.add Rat.sub in
/-- Claim C2 counterexample: the tutorial's own call shows the first
component of the returned pair is the positions and the second the sorted
data, not the other way around — at the sample 1..5 the first component is
1/6, ..., 5/6, which is not the sorted data. -/
theorem claim_C2_counterexample :
    plot_pos [some 1, some 2, some 3, some 4, some 5] (.preset "weibull") false true =
      .ok ([1/6, 2/6, 3/6, 4/6, 5/6], [1, 2, 3, 4, 5]) ∧
    ([1/6, 2/6, 3/6, 4/6, 5/6] : List ℚ) ≠ [1, 2, 3, 4, 5] :=
  ⟨by rfl, by decide⟩

/-- Claim C2 (amended): a successful call returns the pair
(positions, sorted data) — the second component is the ascending-sorted valid
sample (a permutation of it), and the first component is an equally long list
of positions. -/
theorem claim_C2_pair_order {data : List (Option ℚ)} {ps : PosSpec}
    {asPct ascending : Bool} {pos sd : List ℚ}
    (h : plot_pos data ps asPct ascending = .ok (pos, sd)) :
    sd.Pairwise (· ≤ ·) ∧ List.Perm sd (validOf data) ∧ pos.length = sd.length := by
  obtain ⟨a, b, hr, hn, hsd, hpos⟩ := plot_pos_ok_elim h
  subst hsd hpos
  refine ⟨sortedValid_sorted _, sortedValid_perm _, ?_⟩
  rw [scalePositions_length, orientPositions_length, rawPositions_length,
      (sortedValid_perm (validOf data)).length_eq]

unseal Rat.mul Rat.inv Rat.add Rat.sub in
/-- Witness for claim C2 at the weibull call on the sample 1..5. -/
theorem claim_C2_witness :
    ([1, 2, 3, 4, 5] : List ℚ).Pairwise (· ≤ ·) ∧
    List.Perm ([1, 2, 3, 4, 5] : List ℚ)
      (validOf [some 1, some 2, some 3, some 4, some 5]) ∧
    ([1/6, 2/6, 3/6, 4/6, 5/6] : List ℚ).length = ([1, 2, 3, 4, 5] : List ℚ).length :=
  @claim_C2_pair_order [some 1, some 2, some 3, some 4, some 5] (.preset "weibull")
    false true [1/6, 2/6, 3/6, 4/6, 5/6] [1, 2, 3, 4, 5] (by rfl)

unseal Rat.mul Rat.inv Rat.add Rat.sub in
/-- Claim C3 counterexample: α = β = 1 is a valid parameter pair in [0,1]
(the type 7 preset), yet on the sample 1, 2 the first returned position is
exactly 0 — on the boundary, not strictly inside (0,1). -/
theorem claim_C3_counterexample :
    plot_pos [some 1, some 2] (.preset "type 7") false true =
      .ok ([0, 1], [1, 2]) ∧ ¬(0 < (0 : ℚ)) :=
  ⟨by rfl, by decide⟩

/-- Claim C3 (amended): a successful call with explicit α, β in [0,1] returns
as many positions as there are valid values, and when moreover α < 1 and
β < 1 every position lies strictly inside (0,1) — or (0,100) in percentage
mode; at α = 1 or β = 1 (e.g. type 7) the boundary can be attained. -/
theorem claim_C3_open_interval (data : List (Option ℚ)) (a b : ℚ)
    (asPct ascending : Bool) (pos sd : List ℚ)
    (h : plot_pos data (.explicitAB a b) asPct ascending = .ok (pos, sd)) :
    pos.length = (validOf data).length ∧
    (a < 1 → b < 1 → ∀ p ∈ pos, 0 < p ∧ p < (if asPct then (100 : ℚ) else 1)) := by
  obtain ⟨a', b', hr, hn, hsd, hpos⟩ := plot_pos_ok_elim h
  obtain ⟨ha, hb⟩ := resolveAB_explicit_elim hr
  subst ha hb
  subst hpos
  constructor
  · rw [scalePositions_length, orientPositions_length, rawPositions_length]
  · intro ha1 hb1
    exact scale_orient_mem_bounds (rawPositions_mem_bounds ha1 hb1 hn)

unseal Rat.mul Rat.inv Rat.add Rat.sub in
/-- Witness for claim C3 at explicit α = β = 0.4 on the sample 1, 2. -/
theorem claim_C3_witness :
    ([3/11, 8/11] : List ℚ).length = (validOf [some 1, some 2]).length ∧
    ((2/5 : ℚ) < 1 → (2/5 : ℚ) < 1 →
      ∀ p ∈ ([3/11, 8/11] : List ℚ), 0 < p ∧ p < (if false then (100 : ℚ) else 1)) :=
  claim_C3_open_interval [some 1, some 2] (2/5) (2/5) false true [3/11, 8/11] [1, 2]
    (by rfl)

/-- Claim C8: every member of a tied group receives the same rank, that rank
is the arithmetic mean of the consecutive ranks the tied group would span
under a strict ordering, and the returned positions apply the
(j − α)/(n + 1 − α − β) formula to exactly these ranks. -/
theorem claim_C8_tied_ranks :
    (∀ (xs : List ℚ) (v : ℚ), v ∈ xs → avgRank xs v = tiedGroupMean xs v) ∧
    (∀ (xs : List ℚ) (u v : ℚ), u = v → avgRank xs u = avgRank xs v) ∧
    (∀ (data : List (Option ℚ)) (a b : ℚ) (pos sd : List ℚ),
        plot_pos data (.explicitAB a b) false true = .ok (pos, sd) →
        pos = sd.map (fun v => posFormula sd.length a b (avgRank sd v))) := by
  refine ⟨fun xs v hv => avgRank_eq_tiedGroupMean hv, fun xs u v h => by rw [h], ?_⟩
  intro data a b pos sd h
  obtain ⟨a', b', hr, hpos, hsd, hn⟩ := plot_pos_ok_raw h
  obtain ⟨ha, hb⟩ := resolveAB_explicit_elim hr
  subst ha hb
  subst hsd hpos
  unfold rawPositions
  rw [(sortedValid_perm (validOf data)).length_eq]

unseal Rat.mul Rat.inv Rat.add Rat.sub in
/-- Witness for claim C8 on the tied sample 1, 1, 2 with explicit
α = β = 0.4. -/
theorem claim_C8_witness :
    avgRank [1, 1, 2] 1 = tiedGroupMean [1, 1, 2] 1 ∧
    ([11/32, 11/32, 13/16] : List ℚ) =
      ([1, 1, 2] : List ℚ).map
        (fun v => posFormula ([1, 1, 2] : List ℚ).length (2/5) (2/5)
          (avgRank [1, 1, 2] v)) :=
  ⟨claim_C8_tied_ranks.1 [1, 1, 2] 1 (by decide),
   claim_C8_tied_ranks.2.2 [some 1, some 1, some 2] (2/5) (2/5)
     [11/32, 11/32, 13/16] [1, 1, 2] (by rfl)⟩

/-- Claim C9: under ascending order, distinct sorted values receive strictly
increasing positions for α = β in [0,1]; the position formula is strictly
monotone in the rank for α = β with at least two samples, monotone for all
α, β in [0,1], and the returned ascending positions are sorted like the
sorted data. -/
theorem claim_C9_monotone :
    (∀ (data : List (Option ℚ)) (a : ℚ) (pos sd : List ℚ),
        plot_pos data (.explicitAB a a) false true = .ok (pos, sd) →
        (sd.zip pos).Pairwise (fun x y => x.1 < y.1 → x.2 < y.2)) ∧
    (∀ (a : ℚ), 0 ≤ a → a ≤ 1 → ∀ n : ℕ, 2 ≤ n →
        ∀ j k : ℚ, j < k → posFormula n a a j < posFormula n a a k) ∧
    (∀ (a b : ℚ), 0 ≤ a → a ≤ 1 → 0 ≤ b → b ≤ 1 → ∀ n : ℕ, 1 ≤ n →
        ∀ j k : ℚ, j ≤ k → posFormula n a b j ≤ posFormula n a b k) ∧
    (∀ (data : List (Option ℚ)) (ps : PosSpec) (asPct : Bool) (pos sd : List ℚ),
        plot_pos data ps asPct true = .ok (pos, sd) → pos.Pairwise (· ≤ ·)) := by
  refine ⟨?_, ?_, ?_, fun data ps asPct pos sd h => positions_sorted_of_ok h⟩
  · intro data a pos sd h
    obtain ⟨a', b', hr, hpos, hsd, hn⟩ := plot_pos_ok_raw h
    obtain ⟨ha, hb⟩ := resolveAB_explicit_elim hr
    subst ha
    subst hb
    obtain ⟨ha0, ha1, _, _⟩ := resolveAB_range hr
    subst hsd hpos
    unfold rawPositions
    rw [zip_self_map]
    apply List.pairwise_map.mpr
    refine (sortedValid_sorted (validOf data)).imp_of_mem ?_
    intro u v hu hv _ huv
    have hn2 : 2 ≤ ((validOf data).insertionSort (· ≤ ·)).length :=
      two_le_length_of_mem_ne hu hv (ne_of_lt huv)
    rw [(sortedValid_perm (validOf data)).length_eq] at hn2
    have hD : 0 < ((validOf data).length : ℚ) + 1 - a - a := by
      have h2 : (2 : ℚ) ≤ (validOf data).length := by exact_mod_cast hn2
      linarith
    exact posFormula_strictMono hD (avgRank_lt_avgRank hu huv)
  · intro a ha0 ha1 n hn j k hjk
    have hn2 : (2 : ℚ) ≤ n := by exact_mod_cast hn
    exact posFormula_strictMono (by linarith) hjk
  · intro a b ha0 ha1 hb0 hb1 n hn j k hjk
    have hn1 : (1 : ℚ) ≤ n := by exact_mod_cast hn
    exact posFormula_mono (by linarith) hjk

unseal Rat.mul Rat.inv Rat.add Rat.sub in
/-- Witness for claim C9 at α = β = 0.4 on the sample 1, 2. -/
theorem claim_C9_witness :
    ((([1, 2] : List ℚ).zip ([3/11, 8/11] : List ℚ)).Pairwise
        (fun x y => x.1 < y.1 → x.2 < y.2)) ∧
    posFormula 2 (2/5) (2/5) 1 < posFormula 2 (2/5) (2/5) 2 ∧
    posFormula 2 (2/5) (2/5) 1 ≤ posFormula 2 (2/5) (2/5) 2 ∧
    ([3/11, 8/11] : List ℚ).Pairwise (· ≤ ·) :=
  ⟨claim_C9_monotone.1 [some 1, some 2] (2/5) [3/11, 8/11] [1, 2] (by rfl),
   claim_C9_monotone.2.1 (2/5) (by norm_num) (by norm_num) 2 (by norm_num) 1 2
     (by norm_num),
   claim_C9_monotone.2.2.1 (2/5) (2/5) (by norm_num) (by norm_num) (by norm_num)
     (by norm_num) 2 (by norm_num) 1 2 (by norm_num),
   claim_C9_monotone.2.2.2 [some 1, some 2] (.explicitAB (2/5) (2/5)) false
     [3/11, 8/11] [1, 2] (by rfl)⟩

end Probscale
